import Mathlib

/-!
Verification of the OpenEducation ingestion / retrieval / context-synthesis
pipeline (src/app/chunking.py, src/app/llm.py, src/app/embeddings.py,
src/app/qdrant_store.py, src/openeducation/rag/embeddings.py).

Modelling conventions:
* Python strings are `List Char`; Python slices `xs[i:j]` are `slice`.
* Python `while` loops become fuel-indexed recursion returning `Option`;
  `none` means the fuel bound was exhausted (for the windowing loop a
  separate divergence predicate shows `none` holds for every fuel, i.e.
  the source loop truly does not terminate).
* Functions that may raise return `Except String`; a Python function with
  no `raise` on a path is modelled as returning `.ok` on that path.
* Python `x or default` on optional ints is `resolveOr` (`None` and `0`
  are both falsy).
* External services (tokenizer, OpenAI client, numpy float arithmetic)
  are parameters; float vectors are modelled over `ℚ` exactly, with the
  in-place normalisation `v /= norm(v)` represented symbolically by a
  `SVec` (coordinates plus the squared divisor), so that the squared L2
  norm of the returned vector is an exact rational.
* The md5 content key used for dedup is modelled as the hashed text
  itself (md5 treated as collision-free).
-/

namespace OpenEducation

/-- Python `x or default` for an optional int argument: `None` and `0`
are falsy and select the default. -/
def resolveOr (o : Option Nat) (d : Nat) : Nat :=
  match o with
  | none => d
  | some n => if n = 0 then d else n

/-- Python slice `xs[i:j]`. -/
def slice (xs : List α) (i j : Nat) : List α :=
  (xs.drop i).take (j - i)

/-! ### Chunker (src/app/chunking.py)

The windowing loop shared by `chunk_text_chars` and `chunk_text_tokens`:

    while i < n:
        j = min(i + max_size, n)
        chunks.append(xs[i:j])
        if j == n: break
        i = max(0, j - overlap)

We record the spans `(i, j)` the loop emits; the chunk list is the map of
`slice` over the spans.  `max(0, j - overlap)` is Nat subtraction. -/

def windowSpans (size overlap n : Nat) : Nat → Nat → List (Nat × Nat) → Option (List (Nat × Nat))
  | 0, _, _ => none
  | fuel + 1, i, acc =>
    if i < n then
      let j := min (i + size) n
      if j = n then some (acc ++ [(i, j)])
      else windowSpans size overlap n fuel (j - overlap) (acc ++ [(i, j)])
    else some acc

/-- Spans emitted by `chunk_text_chars` on input of length `n`
(the `len(text) <= chunk_size` shortcut returns the whole text). -/
def charSpans (size overlap n : Nat) : Option (List (Nat × Nat)) :=
  if n ≤ size then some [(0, n)]
  else windowSpans size overlap n (n + 1) 0 []

/-- Spans emitted by `chunk_text_tokens` on `n` encoded tokens
(no shortcut: the loop itself handles short inputs). -/
def tokenSpans (size overlap n : Nat) : Option (List (Nat × Nat)) :=
  windowSpans size overlap n (n + 1) 0 []

/-- Model of `chunk_text_chars(text, chunk_size, overlap)`; the optional sizes
default (via Python `or`) to config.CHUNK_SIZE_CHARS = 1200 and
config.CHUNK_OVERLAP_CHARS = 150. -/
def chunk_text_chars (text : List Char) (chunkSize? overlap? : Option Nat) : Option (List (List Char)) :=
  let chunkSize := resolveOr chunkSize? 1200
  let overlap := resolveOr overlap? 150
  (charSpans chunkSize overlap text.length).map (List.map (fun se => slice text se.1 se.2))

/-- The token-window core of `chunk_text_tokens`, acting on the encoded
token sequence `toks`; defaults (via Python `or`) are
config.MAX_CHUNK_TOKENS = 700 and config.OVERLAP_TOKENS = 100. -/
def chunkTokensCore (toks : List Nat) (maxTokens? overlapTokens? : Option Nat) : Option (List (List Nat)) :=
  let maxTokens := resolveOr maxTokens? 700
  let overlapTokens := resolveOr overlapTokens? 100
  (tokenSpans maxTokens overlapTokens toks.length).map (List.map (fun se => slice toks se.1 se.2))

/-- The sliding-window shape the spec describes: every span ends at
`min (start + size) n`, each next start is `max 0 (end - overlap)`
(Nat subtraction), the first window starts at 0 and the last reaches the
end of input, and the spans jointly cover every position of the input. -/
def spansOk (size overlap n : Nat) (spans : List (Nat × Nat)) : Prop :=
  (∀ se ∈ spans, se.2 = min (se.1 + size) n) ∧
  List.Chain' (fun a b => b.1 = a.2 - overlap) spans ∧
  ((spans = [] ∧ n = 0) ∨
    (spans.head? = some (0, min size n) ∧ spans.getLast?.map Prod.snd = some n)) ∧
  (∀ p, p < n → ∃ se ∈ spans, se.1 ≤ p ∧ p < se.2)

/-- The windowing loop started at position 0 exhausts every amount of
fuel: the source `while` loop never terminates. -/
def windowLoopDiverges (size overlap n : Nat) : Prop :=
  ∀ fuel acc, windowSpans size overlap n fuel 0 acc = none

/-- Python `str.strip()`: whitespace removed from both ends. -/
def strip (l : List Char) : List Char :=
  ((l.dropWhile Char.isWhitespace).reverse.dropWhile Char.isWhitespace).reverse

/-- The dedup filter of `auto_chunk_text` / `chunk_with_overrides`: keep
a chunk when its trimmed content was not seen before in the same call and
has more than 10 characters (the md5 key of the trimmed text is modelled
as the trimmed text itself). -/
def dedupeChunks : List (List Char) → List (List Char) → List (List Char)
  | [], _ => []
  | ch :: rest, seen =>
    if strip ch ∉ seen ∧ 10 < (strip ch).length then
      ch :: dedupeChunks rest (strip ch :: seen)
    else dedupeChunks rest seen

/-- An external tokenizer (tiktoken cl100k_base): encode to token ids and
decode back. -/
structure Tokenizer where
  encode : List Char → List Nat
  decode : List Nat → List Char

/-- Model of `chunk_text_tokens(text, max_tokens, overlap_tokens)`: with a
tokenizer, window the encoded tokens and decode each window; without
one, fall back to character chunking with sizes scaled by ~4
chars/token. -/
def chunk_text_tokens (enc? : Option Tokenizer) (text : List Char)
    (maxTokens? overlapTokens? : Option Nat) : Option (List (List Char)) :=
  let maxTokens := resolveOr maxTokens? 700
  let overlapTokens := resolveOr overlapTokens? 100
  match enc? with
  | none => chunk_text_chars text (some (maxTokens * 4)) (some (overlapTokens * 4))
  | some enc =>
    let toks := enc.encode text
    (tokenSpans maxTokens overlapTokens toks.length).map
      (List.map (fun se => enc.decode (slice toks se.1 se.2)))

/-- Model of `auto_chunk_text(text)`: token-based chunking with the default sizes,
then the dedup / minimum-trimmed-length filter. -/
def auto_chunk_text (enc? : Option Tokenizer) (text : List Char) : Option (List (List Char)) :=
  (chunk_text_tokens enc? text none none).map (fun chunks => dedupeChunks chunks [])

/-! ### Context packer (src/app/llm.py: pack_context)

    packed, total = [], 0
    for ch in chunks:
        t = cost(ch)
        if total + t > max_tokens and packed: break
        packed.append(ch); total += t
    return packed

The token-cost function (tiktoken length, or `max(1, len//4)` without a
tokenizer) is abstracted as a parameter `cost`. -/

def packGo (cost : List Char → Nat) (maxTokens : Nat) : List (List Char) → Nat → Bool → List (List Char)
  | [], _, _ => []
  | ch :: rest, total, nonempty =>
    let t := cost ch
    if maxTokens < total + t ∧ nonempty = true then []
    else ch :: packGo cost maxTokens rest (total + t) true

/-- Model of `pack_context(chunks, max_tokens)`. -/
def pack_context (cost : List Char → Nat) (chunks : List (List Char)) (maxTokens : Nat) : List (List Char) :=
  packGo cost maxTokens chunks 0 false

/-- Total token cost of a list of chunks. -/
def costSum (cost : List Char → Nat) (chunks : List (List Char)) : Nat :=
  (chunks.map cost).sum

/-! ### Answer synthesizer (src/app/llm.py: get_client, answer_from_context)

The OpenAI chat-completion call is a parameter
`llm : List Char → Except String (Option (List Char))` mapping the user
prompt to either a failure or the (optional) message content. -/

/-- Model of `get_client()`: raises RuntimeError when OPENAI_API_KEY is unset or
empty (Python falsy). -/
def get_client (apiKey : List Char) : Except String Unit :=
  if apiKey = [] then Except.error "OPENAI_API_KEY is not set" else Except.ok ()

/-- The numbered context block `[1] c1\n\n[2] c2 ...`. -/
def numberedContext (ctx : List (List Char)) : List Char :=
  let items := (List.range ctx.length).zip ctx
  List.intercalate ('\n' :: '\n' :: []) (items.map (fun ic =>
    ('[' :: (Nat.toDigits 10 (ic.1 + 1))) ++ (']' :: ' ' :: []) ++ ic.2))

/-- The user message built by `answer_from_context`. -/
def buildUserPrompt (question : List Char) (ctx : List (List Char)) : List Char :=
  "Context:\n".toList ++ numberedContext ctx ++ "\n\nQuestion: ".toList ++
    question ++ "\nAnswer:".toList

/-- Python `str.strip()` applied to the model reply. -/
def stripReply (s : Option (List Char)) : List Char :=
  strip (s.getD [])

/-- Model of `answer_from_context(question, context_chunks)`; `maxCtx` is
config.RAG_MAX_CONTEXT_TOKENS (default 1600). -/
def answer_from_context (cost : List Char → Nat) (maxCtx : Nat) (apiKey : List Char)
    (llm : List Char → Except String (Option (List Char)))
    (question : List Char) (contextChunks : List (List Char)) : Except String (List Char) :=
  if contextChunks = [] then Except.ok "I don\x27t know.".toList
  else
    match get_client apiKey with
    | Except.error e => Except.error e
    | Except.ok _ =>
      let ctx := pack_context cost contextChunks maxCtx
      let user := buildUserPrompt question ctx
      match llm user with
      | Except.ok content => Except.ok (stripReply content)
      | Except.error _ => Except.ok "I don\x27t know.".toList

/-! ### Local hash embedding (src/openeducation/rag/embeddings.py)

`HashEmbedding._vec` builds a float32 bag-of-tokens vector and divides it
in place by its L2 norm when that norm is positive.  The result is
modelled exactly as an `SVec`: the raw coordinates over `ℚ` together with
the squared divisor, so the squared norm of the returned vector is the
rational `sumSq coords / divisorSq`.  sha1-based bucketing is abstracted
as a parameter `hash`. -/

/-- A vector `coords / sqrt divisorSq`. -/
structure SVec where
  coords : List ℚ
  divisorSq : ℚ

/-- Sum of squared coordinates. -/
def sumSq (v : List ℚ) : ℚ :=
  (v.map (fun x => x * x)).sum

/-- Squared L2 norm of the represented vector. -/
def normSq (sv : SVec) : ℚ :=
  sumSq sv.coords / sv.divisorSq

/-- Python `str.split()`: split on whitespace runs, dropping empties. -/
def splitWsAux : List Char → List Char → List (List Char)
  | [], cur => if cur = [] then [] else [cur.reverse]
  | c :: cs, cur =>
    if c.isWhitespace then
      if cur = [] then splitWsAux cs [] else cur.reverse :: splitWsAux cs []
    else splitWsAux cs (c :: cur)

/-- Model of `text.lower().split()`. -/
def tokensOf (text : List Char) : List (List Char) :=
  splitWsAux (text.map Char.toLower) []

/-- Model of `v[i] += 1.0` (out-of-range indices leave the vector unchanged;
they cannot occur since `h % dims < dims`). -/
def bump : List ℚ → Nat → List ℚ
  | [], _ => []
  | x :: xs, 0 => (x + 1) :: xs
  | x :: xs, i + 1 => x :: bump xs i

/-- The bag-of-tokens accumulation loop of `HashEmbedding._vec`. -/
def rawVec (hash : List Char → Nat) (dims : Nat) (text : List Char) : List ℚ :=
  (tokensOf text).foldl (fun v tok => bump v (hash tok % dims)) (List.replicate dims 0)

namespace HashEmbedding

/-- Model of `HashEmbedding._vec(text)`: the modulo by `dims` raises
ZeroDivisionError when `dims = 0` and some token exists; otherwise the
accumulated vector is divided by its norm when the norm is positive
(divisor 1 means the vector was left undivided). -/
def _vec (hash : List Char → Nat) (dims : Nat) (text : List Char) : Except String SVec :=
  if dims = 0 ∧ tokensOf text ≠ [] then
    Except.error "integer modulo by zero"
  else
    let v := rawVec hash dims text
    Except.ok ⟨v, if 0 < sumSq v then sumSq v else 1⟩

/-- Sequencing of fallible calls over a list (first failure wins). -/
def mapExcept (f : α → Except String β) : List α → Except String (List β)
  | [] => Except.ok []
  | a :: as =>
    match f a with
    | Except.error e => Except.error e
    | Except.ok b =>
      match mapExcept f as with
      | Except.error e => Except.error e
      | Except.ok bs => Except.ok (b :: bs)

/-- Model of `HashEmbedding.embed(texts)`: `np.vstack` on an empty list raises
ValueError. -/
def embed (hash : List Char → Nat) (dims : Nat) (texts : List (List Char)) : Except String (List SVec) :=
  if texts = [] then Except.error "need at least one array to concatenate"
  else mapExcept (_vec hash dims) texts

end HashEmbedding

/-! ### Remote embedding path (src/app/embeddings.py: embed_texts)

The OpenAI embeddings endpoint is a parameter
`service : List (List Char) → List (List ℚ)`; `embed_texts` forwards its
response unchanged (it performs no normalisation). -/

/-- Model of `embed_texts(texts)`. -/
def embed_texts (apiKey : List Char) (service : List (List Char) → List (List ℚ))
    (texts : List (List Char)) : Except String (List (List ℚ)) :=
  if texts = [] then Except.ok []
  else if apiKey = [] then Except.error "OPENAI_API_KEY is not set"
  else Except.ok (service texts)

/-- Squared L2 norm of a plain rational vector. -/
def vecNormSq (v : List ℚ) : ℚ :=
  sumSq v

/-! ### Vector store (src/app/qdrant_store.py)

The Qdrant client is modelled as an explicit state: the named collections
with their configured dimension, and the stored points
`(collection, (id, vector, payload))`.  Payloads are abstracted as
strings. -/

/-- The vector-store state. -/
structure QdrantState where
  collections : List (String × Nat)
  points : List (String × (String × List ℚ × String))

/-- Model of `ensure_collection(collection, dim)`: `dim or embedding_dimension()`
(the configured model dimension `embedDim`), then create the collection
only when its name is absent.  No code path raises. -/
def ensure_collection (embedDim : Nat) (col : String) (dim? : Option Nat)
    (st : QdrantState) : Except String QdrantState :=
  let dim := resolveOr dim? embedDim
  if col ∈ st.collections.map Prod.fst then Except.ok st
  else Except.ok { st with collections := st.collections ++ [(col, dim)] }

/-- The `PointStruct` list built by `upsert_vectors`:
`zip(ids, vectors, payloads)` truncates to the shortest list. -/
def build_points (ids : List String) (vectors : List (List ℚ)) (payloads : List String) :
    List (String × List ℚ × String) :=
  (ids.zip (vectors.zip payloads)).map (fun x => (x.1, x.2.1, x.2.2))

/-- Upsert of one point: overwrite any entry of the collection sharing
the id, then append. -/
def putPoint (pts : List (String × (String × List ℚ × String))) (col : String)
    (p : String × List ℚ × String) : List (String × (String × List ℚ × String)) :=
  (pts.filter (fun q => ¬(q.1 = col ∧ q.2.1 = p.1))) ++ [(col, p)]

/-- Model of `client.upsert(collection, points)`. -/
def upsertAll (pts : List (String × (String × List ℚ × String))) (col : String)
    (ps : List (String × List ℚ × String)) : List (String × (String × List ℚ × String)) :=
  ps.foldl (fun acc p => putPoint acc col p) pts

/-- Model of `len(vectors[0]) if vectors else embedding_dimension()`. -/
def firstDim (embedDim : Nat) (vectors : List (List ℚ)) : Nat :=
  match vectors with
  | [] => embedDim
  | v :: _ => v.length

/-- Model of `upsert_vectors(vectors, payloads, ids, collection)`: asserts only
`len(vectors) == len(payloads)`, ensures the collection (dimension taken
from the first vector when any), generates ids (`gen`, modelling
`uuid.uuid4`) when none are supplied, and submits the zipped points. -/
def upsert_vectors (embedDim : Nat) (gen : Nat → String)
    (vectors : List (List ℚ)) (payloads : List String) (ids? : Option (List String))
    (col : String) (st : QdrantState) : Except String (List String × QdrantState) :=
  if vectors.length ≠ payloads.length then Except.error "AssertionError"
  else
    match ensure_collection embedDim col (some (firstDim embedDim vectors)) st with
    | Except.error e => Except.error e
    | Except.ok st1 =>
      let ids := match ids? with
        | none => (List.range vectors.length).map gen
        | some l => l
      let pts := build_points ids vectors payloads
      Except.ok (ids, { st1 with points := upsertAll st1.points col pts })

/-! ### Concrete instances used by counterexamples and witnesses. -/

/-- A concrete token-cost function: `max(1, len(ch) // 4)` (the
tokenizer-free fallback in the source). -/
def cost4 (ch : List Char) : Nat :=
  max 1 (ch.length / 4)

/-- A concrete bucket hash (token length). -/
def hashLen (tok : List Char) : Nat :=
  tok.length

/-- A concrete embedding service that returns the single vector `[2]`. -/
def constService2 : List (List Char) → List (List ℚ) :=
  fun _ => [[(2 : ℚ)]]

/-- A concrete always-failing chat-completion call. -/
def svcErr : List Char → Except String (Option (List Char)) :=
  fun _ => Except.error "boom"

/-- A concrete always-succeeding chat-completion call. -/
def svcOk : List Char → Except String (Option (List Char)) :=
  fun _ => Except.ok (some " grounded answer ".toList)

/-- A concrete id generator (stand-in for `uuid.uuid4`). -/
def genG : Nat → String :=
  fun _ => "g"

/-- Whether an `Except` value is a success. -/
def exceptOk : Except String α → Bool
  | Except.ok _ => true
  | Except.error _ => false

/-! ## Theorems -/

theorem slice_length (xs : List α) (i j : Nat) :
    (slice xs i j).length = min (j - i) (xs.length - i) := by
  simp [slice]

theorem slice_all (xs : List α) : slice xs 0 xs.length = xs := by
  simp [slice]

theorem resolveOr_pos (n d : Nat) (h : 0 < n) : resolveOr (some n) d = n := by
  simp [resolveOr]; omega

/-- Invariant of the windowing loop: with `overlap < size` and enough
fuel, the loop terminates and emits spans of the sliding-window shape
covering `[i, n)`. -/
theorem windowSpans_go (size overlap n : Nat) (hov : overlap < size) :
    ∀ fuel i acc, i < n → n - i ≤ fuel →
    ∃ tail, windowSpans size overlap n fuel i acc = some (acc ++ tail) ∧
      tail.head? = some (i, min (i + size) n) ∧
      (∀ se ∈ tail, se.2 = min (se.1 + size) n) ∧
      List.Chain' (fun a b => b.1 = a.2 - overlap) tail ∧
      tail.getLast?.map Prod.snd = some n ∧
      (∀ p, i ≤ p → p < n → ∃ se ∈ tail, se.1 ≤ p ∧ p < se.2) := by
  intro fuel
  induction fuel with
  | zero => intro i acc hi hfuel; omega
  | succ fuel ih =>
    intro i acc hi hfuel
    by_cases hj : min (i + size) n = n
    · refine ⟨[(i, min (i + size) n)], ?_, rfl, ?_, ?_, ?_, ?_⟩
      · simp [windowSpans, hi, hj]
      · intro se hse; simp at hse; subst hse; rfl
      · simp
      · simp [hj]
      · intro p hip hpn
        exact ⟨(i, min (i + size) n), by simp, hip, by omega⟩
    · have hjlt : min (i + size) n < n := lt_of_le_of_ne (min_le_right _ _) hj
      have hjeq : min (i + size) n = i + size := by omega
      have hii : i < i + size - overlap := by omega
      have hin : i + size - overlap < n := by omega
      have hfe : n - (i + size - overlap) ≤ fuel := by omega
      obtain ⟨tail, heq, hhead, hall, hchain, hlast, hcov⟩ :=
        ih (i + size - overlap) (acc ++ [(i, min (i + size) n)]) hin hfe
      refine ⟨(i, min (i + size) n) :: tail, ?_, rfl, ?_, ?_, ?_, ?_⟩
      · simp only [windowSpans, if_pos hi, if_neg hj]
        rw [show (i + size) ⊓ n - overlap = i + size - overlap by omega, heq]
        simp
      · intro se hse
        rcases List.mem_cons.mp hse with h | h
        · subst h; rfl
        · exact hall se h
      · obtain ⟨t, ts, rfl⟩ : ∃ t ts, tail = t :: ts := by
          cases tail with
          | nil => simp at hhead
          | cons t ts => exact ⟨t, ts, rfl⟩
        refine List.chain'_cons.mpr ⟨?_, hchain⟩
        have : t = (i + size - overlap, min (i + size - overlap + size) n) := by
          simpa using hhead
        simp [this, hjeq]
      · obtain ⟨t, ts, rfl⟩ : ∃ t ts, tail = t :: ts := by
          cases tail with
          | nil => simp at hhead
          | cons t ts => exact ⟨t, ts, rfl⟩
        simpa using hlast
      · intro p hip hpn
        by_cases hpj : p < min (i + size) n
        · exact ⟨(i, min (i + size) n), by simp, hip, hpj⟩
        · obtain ⟨se, hmem, h1, h2⟩ := hcov p (by omega) hpn
          exact ⟨se, List.mem_cons_of_mem _ hmem, h1, h2⟩

/-- The spans of `charSpans` exist and have the sliding-window shape whenever
`overlap < size`. -/
theorem charSpans_ok (size overlap n : Nat) (hov : overlap < size) :
    ∃ spans, charSpans size overlap n = some spans ∧ spansOk size overlap n spans := by
  by_cases hn : n ≤ size
  · refine ⟨[(0, n)], by simp [charSpans, hn], ?_, ?_, ?_, ?_⟩
    · intro se hse; simp at hse; subst hse; simp; omega
    · simp
    · right; constructor
      · simp; omega
      · simp
    · intro p hp; exact ⟨(0, n), by simp, Nat.zero_le _, hp⟩
  · obtain ⟨tail, heq, hhead, hall, hchain, hlast, hcov⟩ :=
      windowSpans_go size overlap n hov (n + 1) 0 [] (by omega) (by omega)
    refine ⟨tail, ?_, hall, hchain, ?_, ?_⟩
    · simpa [charSpans, hn] using heq
    · right; exact ⟨by simpa using hhead, hlast⟩
    · intro p hp; exact hcov p (Nat.zero_le _) hp

/-- The spans of `tokenSpans` exist and have the sliding-window shape whenever
`overlap < size`. -/
theorem tokenSpans_ok (size overlap n : Nat) (hov : overlap < size) :
    ∃ spans, tokenSpans size overlap n = some spans ∧ spansOk size overlap n spans := by
  rcases Nat.eq_zero_or_pos n with hn | hn
  · subst hn
    refine ⟨[], ?_, by simp, by simp, Or.inl ⟨rfl, rfl⟩, by intro p hp; omega⟩
    simp [tokenSpans, windowSpans]
  · obtain ⟨tail, heq, hhead, hall, hchain, hlast, hcov⟩ :=
      windowSpans_go size overlap n hov (n + 1) 0 [] hn (by omega)
    refine ⟨tail, ?_, hall, hchain, ?_, ?_⟩
    · simpa [tokenSpans] using heq
    · right; exact ⟨by simpa using hhead, hlast⟩
    · intro p hp; exact hcov p (Nat.zero_le _) hp

/-- C1: for `0 < overlap < max_size`, both `chunk_text_chars` and the
token windowing of `chunk_text_tokens` terminate and emit exactly the
sliding windows `[start, start + max_size)` with each next start
`max 0 (end - overlap)`, the last window reaching the end of input; every
emitted chunk has size at most `max_size` and the windows jointly cover
every position of the input. -/
theorem C1_chunker_sliding_window (size overlap : Nat)
    (h0 : 0 < overlap) (hov : overlap < size) :
    (∀ n, ∃ spans, charSpans size overlap n = some spans ∧ spansOk size overlap n spans) ∧
    (∀ n, ∃ spans, tokenSpans size overlap n = some spans ∧ spansOk size overlap n spans) ∧
    (∀ text : List Char, ∃ out, chunk_text_chars text (some size) (some overlap) = some out ∧
      ∀ c ∈ out, c.length ≤ size) ∧
    (∀ toks : List Nat, ∃ out, chunkTokensCore toks (some size) (some overlap) = some out ∧
      ∀ c ∈ out, c.length ≤ size) := by
  have hsize : 0 < size := by omega
  refine ⟨fun n => charSpans_ok size overlap n hov,
          fun n => tokenSpans_ok size overlap n hov, ?_, ?_⟩
  · intro text
    obtain ⟨spans, hs, hok⟩ := charSpans_ok size overlap text.length hov
    refine ⟨spans.map (fun se => slice text se.1 se.2), ?_, ?_⟩
    · simp [chunk_text_chars, resolveOr_pos _ _ hsize, resolveOr_pos _ _ h0, hs]
    · intro c hc
      obtain ⟨se, hmem, rfl⟩ := List.mem_map.mp hc
      have he := hok.1 se hmem
      have h2 : se.2 ≤ se.1 + size := by rw [he]; exact min_le_left _ _
      calc (slice text se.1 se.2).length ≤ se.2 - se.1 := by
            rw [slice_length]; exact min_le_left _ _
        _ ≤ size := by omega
  · intro toks
    obtain ⟨spans, hs, hok⟩ := tokenSpans_ok size overlap toks.length hov
    refine ⟨spans.map (fun se => slice toks se.1 se.2), ?_, ?_⟩
    · simp [chunkTokensCore, resolveOr_pos _ _ hsize, resolveOr_pos _ _ h0, hs]
    · intro c hc
      obtain ⟨se, hmem, rfl⟩ := List.mem_map.mp hc
      have he := hok.1 se hmem
      have h2 : se.2 ≤ se.1 + size := by rw [he]; exact min_le_left _ _
      calc (slice toks se.1 se.2).length ≤ se.2 - se.1 := by
            rw [slice_length]; exact min_le_left _ _
        _ ≤ size := by omega

/-- Witness for C1 at `max_size = 3`, `overlap = 1`, input length 7. -/
theorem C1_chunker_sliding_window_witness :
    (0 : Nat) < 1 ∧ 1 < 3 ∧
      (∃ spans, charSpans 3 1 7 = some spans ∧ spansOk 3 1 7 spans) :=
  ⟨by decide, by decide, (C1_chunker_sliding_window 3 1 (by decide) (by decide)).1 7⟩

/-- With `overlap ≥ size > 0` and input longer than `size`, the start
index is stuck at 0 (`max 0 (size - overlap) = 0`) and the windowing loop
never terminates. -/
theorem windowSpans_stuck (size overlap n : Nat) (hsz : 0 < size)
    (hov : size ≤ overlap) (hn : size < n) : windowLoopDiverges size overlap n := by
  intro fuel
  induction fuel with
  | zero => intro acc; rfl
  | succ fuel ih =>
    intro acc
    have h0n : 0 < n := by omega
    have hmin : min (0 + size) n = size := by omega
    simp only [windowSpans, if_pos h0n]
    rw [hmin, if_neg (by omega : ¬size = n), show size - overlap = 0 by omega]
    exact ih _

/-- C7 counterexample: at `max_size = 2`, `overlap = 2` on a
10-character input, the chunker neither raises nor clamps — the loop
diverges (exhausts every fuel bound), so the call never finishes. -/
theorem C7_counterexample :
    windowLoopDiverges 2 2 10 ∧
    chunk_text_chars (List.replicate 10 'a') (some 2) (some 2) = none ∧
    chunkTokensCore (List.range 10) (some 2) (some 2) = none :=
  ⟨windowSpans_stuck 2 2 10 (by decide) (by decide) (by decide), by decide, by decide⟩

/-- C7 (amended): with `overlap ≥ max_size > 0` the chunker performs no
validation or clamping: on any input longer than `max_size` it proceeds
with the parameters as given and the windowing loop never terminates
(start stays at 0 for every fuel bound), for both the character-based and
the token-based path. -/
theorem C7_overlap_ge_size_diverges (size overlap n : Nat) (hsz : 0 < size)
    (hov : size ≤ overlap) (hn : size < n) :
    windowLoopDiverges size overlap n ∧
    (∀ text : List Char, text.length = n →
      chunk_text_chars text (some size) (some overlap) = none) ∧
    (∀ toks : List Nat, toks.length = n →
      chunkTokensCore toks (some size) (some overlap) = none) := by
  have hdiv := windowSpans_stuck size overlap n hsz hov hn
  have hop : 0 < overlap := by omega
  refine ⟨hdiv, ?_, ?_⟩
  · intro text htext
    simp only [chunk_text_chars, resolveOr_pos _ _ hsz, resolveOr_pos _ _ hop, htext,
      charSpans, if_neg (Nat.not_le.mpr hn), hdiv (n + 1) [], Option.map_none']
  · intro toks htoks
    simp only [chunkTokensCore, resolveOr_pos _ _ hsz, resolveOr_pos _ _ hop, htoks,
      tokenSpans, hdiv (n + 1) [], Option.map_none']

/-- Witness for C7 (amended) at `max_size = 2`, `overlap = 3`, input
length 5. -/
theorem C7_overlap_ge_size_diverges_witness :
    (0 : Nat) < 2 ∧ 2 ≤ 3 ∧ 2 < 5 ∧
      chunk_text_chars (List.replicate 5 'b') (some 2) (some 3) = none :=
  ⟨by decide, by decide, by decide,
    (C7_overlap_ge_size_diverges 2 3 5 (by decide) (by decide) (by decide)).2.1
      (List.replicate 5 'b') (by decide)⟩

/-- C8 counterexample: chunking the empty string with
`chunk_text_chars` returns the one-element list containing the empty
chunk, not the empty sequence. -/
theorem C8_counterexample :
    chunk_text_chars [] (some 5) (some 1) = some [[]] ∧
    (some [[]] : Option (List (List Char))) ≠ some [] :=
  ⟨by decide, by decide⟩

/-- C8 (amended): `chunk_text_chars` on the empty string returns the
single empty chunk `[""]` (the `len(text) <= chunk_size` shortcut), while
`auto_chunk_text` on the empty string returns the empty sequence (the
empty chunk is dropped by the minimum-trimmed-length filter, and the
token path encodes no tokens); any input strictly shorter than `max_size`
yields from `chunk_text_chars` exactly one chunk equal to the input. -/
theorem C8_empty_and_short_input :
    (∀ s o, chunk_text_chars [] s o = some [[]]) ∧
    (∀ enc? : Option Tokenizer, (∀ enc ∈ enc?, enc.encode [] = []) →
      auto_chunk_text enc? [] = some []) ∧
    (∀ (text : List Char) (s o : Nat), text.length < s →
      chunk_text_chars text (some s) (some o) = some [text]) := by
  refine ⟨?_, ?_, ?_⟩
  · intro s o
    simp [chunk_text_chars, charSpans, slice]
  · intro enc? henc
    match enc? with
    | none => decide
    | some enc =>
      have he : enc.encode [] = [] := henc enc rfl
      simp [auto_chunk_text, chunk_text_tokens, he, tokenSpans, windowSpans, dedupeChunks]
  · intro text s o hlen
    have hs : 0 < s := by omega
    have hshort : text.length ≤ s := by omega
    simp [chunk_text_chars, resolveOr_pos _ _ hs, charSpans, hshort, slice_all]

/-- Witness for C8 at concrete inputs. -/
theorem C8_empty_and_short_input_witness :
    chunk_text_chars [] (some 7) (some 2) = some [[]] ∧
    auto_chunk_text none [] = some [] ∧
    chunk_text_chars ('a' :: 'b' :: []) (some 5) (some 2) = some [('a' :: 'b' :: [])] :=
  ⟨C8_empty_and_short_input.1 (some 7) (some 2),
    C8_empty_and_short_input.2.1 none (by simp),
    C8_empty_and_short_input.2.2 ('a' :: 'b' :: []) 5 2 (by decide)⟩

theorem costSum_nil (cost : List Char → Nat) : costSum cost [] = 0 := by
  simp [costSum]

theorem costSum_cons (cost : List Char → Nat) (ch : List Char) (l : List (List Char)) :
    costSum cost (ch :: l) = cost ch + costSum cost l := by
  simp [costSum]

theorem packGo_cons_true (cost : List Char → Nat) (B : Nat) (ch : List Char)
    (rest : List (List Char)) (total : Nat) :
    packGo cost B (ch :: rest) total true =
      if B < total + cost ch then []
      else ch :: packGo cost B rest (total + cost ch) true := by
  by_cases hc : B < total + cost ch
  · simp [packGo, hc]
  · simp [packGo, hc]

theorem packGo_cons_false (cost : List Char → Nat) (B : Nat) (ch : List Char)
    (rest : List (List Char)) (total : Nat) :
    packGo cost B (ch :: rest) total false =
      ch :: packGo cost B rest (total + cost ch) true := by
  simp [packGo]

/-- The packing loop returns a prefix of its input. -/
theorem packGo_front (cost : List Char → Nat) (B : Nat) :
    ∀ (l : List (List Char)) (total : Nat) (ne : Bool),
    ∃ t, l = packGo cost B l total ne ++ t := by
  intro l
  induction l with
  | nil => intro total ne; exact ⟨[], rfl⟩
  | cons ch rest ih =>
    intro total ne
    cases ne with
    | false =>
      obtain ⟨t, ht⟩ := ih (total + cost ch) true
      exact ⟨t, by rw [packGo_cons_false, List.cons_append, ← ht]⟩
    | true =>
      by_cases hc : B < total + cost ch
      · exact ⟨ch :: rest, by rw [packGo_cons_true, if_pos hc]; rfl⟩
      · obtain ⟨t, ht⟩ := ih (total + cost ch) true
        exact ⟨t, by rw [packGo_cons_true, if_neg hc, List.cons_append, ← ht]⟩

/-- Once something is packed, a running total already over the budget
stops the loop immediately. -/
theorem packGo_over (cost : List Char → Nat) (B : Nat) (l : List (List Char))
    (total : Nat) (h : B < total) : packGo cost B l total true = [] := by
  cases l with
  | nil => rfl
  | cons ch rest =>
    rw [packGo_cons_true, if_pos (Nat.lt_of_lt_of_le h (Nat.le_add_right _ _))]

/-- Once something is packed and the running total is within budget, the
loop keeps the cumulative total within budget. -/
theorem packGo_total_le (cost : List Char → Nat) (B : Nat) :
    ∀ (l : List (List Char)) (total : Nat), total ≤ B →
    total + costSum cost (packGo cost B l total true) ≤ B := by
  intro l
  induction l with
  | nil => intro total htot; simpa [packGo, costSum_nil] using htot
  | cons ch rest ih =>
    intro total htot
    rw [packGo_cons_true]
    by_cases hc : B < total + cost ch
    · rw [if_pos hc, costSum_nil]; omega
    · have hle : total + cost ch ≤ B := by omega
      have hrec := ih (total + cost ch) hle
      rw [if_neg hc, costSum_cons]
      omega

/-- The loop stops exactly at the first candidate that does not fit. -/
theorem packGo_cut (cost : List Char → Nat) (B : Nat) :
    ∀ (l : List (List Char)) (total : Nat),
    (packGo cost B l total true).length < l.length →
    ∃ next, l.get? (packGo cost B l total true).length = some next ∧
      B < total + costSum cost (packGo cost B l total true) + cost next := by
  intro l
  induction l with
  | nil => intro total h; simp at h
  | cons ch rest ih =>
    intro total h
    by_cases hc : B < total + cost ch
    · have hr : packGo cost B (ch :: rest) total true = [] := by
        rw [packGo_cons_true, if_pos hc]
      rw [hr]
      exact ⟨ch, rfl, by simpa [costSum_nil] using hc⟩
    · have hr : packGo cost B (ch :: rest) total true =
          ch :: packGo cost B rest (total + cost ch) true := by
        rw [packGo_cons_true, if_neg hc]
      rw [hr] at h ⊢
      have h2 : (packGo cost B rest (total + cost ch) true).length < rest.length := by
        simpa using h
      obtain ⟨next, hn, hlt⟩ := ih (total + cost ch) h2
      refine ⟨next, by simpa using hn, ?_⟩
      simp only [costSum_cons]
      omega

/-- C2: `pack_context` returns a prefix of the candidates in their given
order; the cumulative cost of the result exceeds the budget only when the
result is the first candidate alone (any result with two or more
candidates is within budget); and the result stops exactly at the first
candidate that does not fit — nothing after it is added. -/
theorem C2_pack_context_budget (cost : List Char → Nat)
    (chunks : List (List Char)) (B : Nat) :
    (∃ t, chunks = pack_context cost chunks B ++ t) ∧
    (2 ≤ (pack_context cost chunks B).length →
      costSum cost (pack_context cost chunks B) ≤ B) ∧
    ((pack_context cost chunks B).length < chunks.length →
      ∃ next, chunks.get? (pack_context cost chunks B).length = some next ∧
        B < costSum cost (pack_context cost chunks B) + cost next) := by
  refine ⟨packGo_front cost B chunks 0 false, ?_, ?_⟩
  · intro hlen
    cases chunks with
    | nil => simp [pack_context, packGo, costSum_nil]
    | cons ch rest =>
      have hr : pack_context cost (ch :: rest) B =
          ch :: packGo cost B rest (0 + cost ch) true := by
        rw [pack_context, packGo_cons_false]
      rw [hr] at hlen ⊢
      have hne : packGo cost B rest (0 + cost ch) true ≠ [] := by
        intro hnil; rw [hnil] at hlen; simp at hlen
      have hchB : cost ch ≤ B := by
        by_contra hgt
        exact hne (packGo_over cost B rest _ (by omega))
      have := packGo_total_le cost B rest (0 + cost ch) (by omega)
      simp only [costSum_cons]
      omega
  · intro h
    cases chunks with
    | nil => simp at h
    | cons ch rest =>
      have hr : pack_context cost (ch :: rest) B =
          ch :: packGo cost B rest (0 + cost ch) true := by
        rw [pack_context, packGo_cons_false]
      rw [hr] at h ⊢
      have h2 : (packGo cost B rest (0 + cost ch) true).length < rest.length := by
        simpa using h
      obtain ⟨next, hn, hlt⟩ := packGo_cut cost B rest (0 + cost ch) h2
      refine ⟨next, by simpa using hn, ?_⟩
      simp only [costSum_cons]
      omega

/-- Witness for C2: three candidates of costs 1, 1, 3 against budget 3
pack to the first two, within budget; the third did not fit. -/
theorem C2_pack_context_budget_witness :
    2 ≤ (pack_context cost4
        (List.replicate 4 'a' :: List.replicate 4 'b' :: List.replicate 12 'c' :: []) 3).length ∧
    costSum cost4 (pack_context cost4
        (List.replicate 4 'a' :: List.replicate 4 'b' :: List.replicate 12 'c' :: []) 3) ≤ 3 :=
  ⟨by decide,
    (C2_pack_context_budget cost4
      (List.replicate 4 'a' :: List.replicate 4 'b' :: List.replicate 12 'c' :: []) 3).2.1
      (by decide)⟩

/-- C6: for a nonempty candidate list and a nonzero budget,
`pack_context` is a nonempty prefix of the input beginning with the first
candidate (the first candidate is accepted unconditionally, so this holds
even when its cost alone exceeds the budget). -/
theorem C6_pack_context_first (cost : List Char → Nat)
    (chunks : List (List Char)) (B : Nat) (hne : chunks ≠ []) (hB : B ≠ 0) :
    pack_context cost chunks B ≠ [] ∧
    (pack_context cost chunks B).head? = chunks.head? ∧
    (∃ t, chunks = pack_context cost chunks B ++ t) := by
  cases chunks with
  | nil => exact absurd rfl hne
  | cons ch rest =>
    have hr : pack_context cost (ch :: rest) B =
        ch :: packGo cost B rest (0 + cost ch) true := by
      rw [pack_context, packGo_cons_false]
    exact ⟨by simp [hr], by simp [hr], packGo_front cost B (ch :: rest) 0 false⟩

/-- Witness for C6: a single candidate of cost 2 against budget 1 is
still returned. -/
theorem C6_pack_context_first_witness :
    ((List.replicate 8 'x' :: []) : List (List Char)) ≠ [] ∧ (1 : Nat) ≠ 0 ∧
    (pack_context cost4 (List.replicate 8 'x' :: []) 1 ≠ [] ∧
      (pack_context cost4 (List.replicate 8 'x' :: []) 1).head? =
        ((List.replicate 8 'x' :: []) : List (List Char)).head? ∧
      ∃ t, ((List.replicate 8 'x' :: []) : List (List Char)) =
        pack_context cost4 (List.replicate 8 'x' :: []) 1 ++ t) :=
  ⟨by decide, by decide,
    C6_pack_context_first cost4 (List.replicate 8 'x' :: []) 1 (by decide) (by decide)⟩

/-- C5 counterexample: with the API key unset (empty, Python falsy) and
a nonempty context bundle, `answer_from_context` calls `get_client()`
outside its try block and the RuntimeError propagates to the caller
instead of the sentinel being returned. -/
theorem C5_counterexample :
    answer_from_context cost4 1600 [] svcOk "What is X?".toList ("some context".toList :: []) =
      Except.error "OPENAI_API_KEY is not set" := by
  rfl

/-- C5 (amended): `answer_from_context` returns the sentinel
"I don't know." when the context bundle is empty and when the
chat-completion request fails for any reason, and with a nonempty API key
no exception escapes; but when the API key is unset and the bundle is
nonempty, the RuntimeError raised by `get_client` propagates out. -/
theorem C5_answer_fallback (cost : List Char → Nat) (maxCtx : Nat) (apiKey : List Char)
    (llm : List Char → Except String (Option (List Char)))
    (question : List Char) (contextChunks : List (List Char)) :
    (contextChunks = [] →
      answer_from_context cost maxCtx apiKey llm question contextChunks =
        Except.ok "I don\x27t know.".toList) ∧
    (apiKey ≠ [] → ∀ err,
      llm (buildUserPrompt question (pack_context cost contextChunks maxCtx)) =
        Except.error err →
      answer_from_context cost maxCtx apiKey llm question contextChunks =
        Except.ok "I don\x27t know.".toList) ∧
    (apiKey ≠ [] →
      exceptOk (answer_from_context cost maxCtx apiKey llm question contextChunks) = true) := by
  refine ⟨?_, ?_, ?_⟩
  · intro h
    simp [answer_from_context, h]
  · intro hk err hllm
    by_cases hctx : contextChunks = []
    · simp [answer_from_context, hctx]
    · simp [answer_from_context, hctx, get_client, hk, hllm]
  · intro hk
    by_cases hctx : contextChunks = []
    · simp [answer_from_context, hctx, exceptOk]
    · cases hllm : llm (buildUserPrompt question (pack_context cost contextChunks maxCtx)) with
      | ok content => simp [answer_from_context, hctx, get_client, hk, hllm, exceptOk]
      | error err => simp [answer_from_context, hctx, get_client, hk, hllm, exceptOk]

/-- Witness for C5 (amended): empty bundle, and a failing service with a
set key, both produce the sentinel. -/
theorem C5_answer_fallback_witness :
    answer_from_context cost4 1600 "k".toList svcOk "q".toList [] =
      Except.ok "I don\x27t know.".toList ∧
    answer_from_context cost4 1600 "k".toList svcErr "q".toList ("context chunk".toList :: []) =
      Except.ok "I don\x27t know.".toList :=
  ⟨(C5_answer_fallback cost4 1600 "k".toList svcOk "q".toList []).1 rfl,
    (C5_answer_fallback cost4 1600 "k".toList svcErr "q".toList
      ("context chunk".toList :: [])).2.1 (by decide) "boom" rfl⟩

/-- The function `ensure_collection` never raises: it either no-ops on a name match
(regardless of the stored dimension) or appends the new collection. -/
theorem ensure_collection_cases (embedDim : Nat) (col : String) (dim? : Option Nat)
    (st : QdrantState) :
    (col ∈ st.collections.map Prod.fst ∧
      ensure_collection embedDim col dim? st = Except.ok st) ∨
    (col ∉ st.collections.map Prod.fst ∧
      ensure_collection embedDim col dim? st = Except.ok
        { st with collections := st.collections ++ [(col, resolveOr dim? embedDim)] }) := by
  by_cases hc : col ∈ st.collections.map Prod.fst
  · exact Or.inl ⟨hc, by simp [ensure_collection, hc]⟩
  · exact Or.inr ⟨hc, by simp [ensure_collection, hc]⟩

/-- C3 counterexample: an existing collection "c" of dimension 5, asked
for with dimension 3, is silently accepted — `ensure_collection` returns
successfully with the state unchanged instead of failing loudly on the
dimension mismatch. -/
theorem C3_counterexample :
    ensure_collection 3072 "c" (some 3) ⟨[("c", 5)], []⟩ =
      Except.ok ⟨[("c", 5)], []⟩ ∧ (3 : Nat) ≠ 5 := by
  constructor
  · rfl
  · decide

/-- C3 (amended): `ensure_collection` is idempotent — it creates the
collection when the name is absent and no-ops whenever a collection with
that name exists — but it checks no dimension: a name match is accepted
silently regardless of the stored dimension, and no code path raises. -/
theorem C3_ensure_collection_idempotent (embedDim : Nat) (col : String)
    (dim? : Option Nat) (st : QdrantState) :
    (∃ st1, ensure_collection embedDim col dim? st = Except.ok st1 ∧
      ensure_collection embedDim col dim? st1 = Except.ok st1) ∧
    (col ∈ st.collections.map Prod.fst →
      ensure_collection embedDim col dim? st = Except.ok st) ∧
    (col ∉ st.collections.map Prod.fst →
      ensure_collection embedDim col dim? st = Except.ok
        { st with collections := st.collections ++ [(col, resolveOr dim? embedDim)] }) := by
  rcases ensure_collection_cases embedDim col dim? st with ⟨hc, heq⟩ | ⟨hc, heq⟩
  · exact ⟨⟨st, heq, heq⟩, fun _ => heq, fun hn => absurd hc hn⟩
  · refine ⟨⟨_, heq, ?_⟩, fun hmem => absurd hmem hc, fun _ => heq⟩
    have hmem1 : col ∈ ({ st with collections :=
        st.collections ++ [(col, resolveOr dim? embedDim)] } : QdrantState).collections.map Prod.fst := by
      simp
    simp [ensure_collection, hmem1]

/-- Witness for C3 (amended): creating "c" in a store that only has "a"
then re-ensuring is a no-op. -/
theorem C3_ensure_collection_idempotent_witness :
    ("c" ∉ (⟨[("a", 2)], []⟩ : QdrantState).collections.map Prod.fst) ∧
    ensure_collection 3072 "c" (some 4) ⟨[("a", 2)], []⟩ =
      Except.ok ⟨[("a", 2), ("c", 4)], []⟩ :=
  ⟨by decide,
    (C3_ensure_collection_idempotent 3072 "c" (some 4) ⟨[("a", 2)], []⟩).2.2 (by decide)⟩

theorem zipTruncRight : ∀ (l1 : List α) (l2 : List β), l1.zip (l2.take l1.length) = l1.zip l2 := by
  intro l1
  induction l1 with
  | nil => intro l2; rfl
  | cons a as ih =>
    intro l2
    cases l2 with
    | nil => rfl
    | cons b bs => simp [List.zip_cons_cons, ih]

theorem zip_take_take : ∀ (l1 : List α) (l2 : List β) (k : Nat),
    (l1.take k).zip (l2.take k) = (l1.zip l2).take k := by
  intro l1
  induction l1 with
  | nil => intro l2 k; simp
  | cons a as ih =>
    intro l2 k
    cases l2 with
    | nil => simp
    | cons b bs =>
      cases k with
      | zero => rfl
      | succ k => simp [List.zip_cons_cons, ih]

/-- With equal-length vectors and payloads, `upsert_vectors` with
explicit ids succeeds and returns the supplied ids unchanged. -/
theorem upsert_vectors_some_ids (embedDim : Nat) (gen : Nat → String)
    (vectors : List (List ℚ)) (payloads : List String) (ids : List String)
    (col : String) (st : QdrantState) (hlen : vectors.length = payloads.length) :
    ∃ st1, upsert_vectors embedDim gen vectors payloads (some ids) col st =
      Except.ok (ids, st1) := by
  unfold upsert_vectors
  rw [if_neg (by omega : ¬vectors.length ≠ payloads.length)]
  rcases ensure_collection_cases embedDim col (some (firstDim embedDim vectors)) st with
    ⟨_, heq⟩ | ⟨_, heq⟩ <;> rw [heq] <;> exact ⟨_, rfl⟩

/-- C10: with an explicit ids list shorter than the (equal-length)
vectors and payloads lists, `upsert_vectors` raises no error and returns
the supplied ids unchanged, while the `PointStruct` list it submits is
truncated by `zip` to the first `len(ids)` (id, vector, payload) points. -/
theorem C10_upsert_truncates (embedDim : Nat) (gen : Nat → String)
    (vectors : List (List ℚ)) (payloads : List String) (ids : List String)
    (col : String) (st : QdrantState)
    (hlen : vectors.length = payloads.length) (hids : ids.length < vectors.length) :
    ∃ st1, upsert_vectors embedDim gen vectors payloads (some ids) col st =
        Except.ok (ids, st1) ∧
      (build_points ids vectors payloads).length = ids.length ∧
      build_points ids vectors payloads =
        build_points ids (vectors.take ids.length) (payloads.take ids.length) := by
  obtain ⟨st1, heq⟩ := upsert_vectors_some_ids embedDim gen vectors payloads ids col st hlen
  refine ⟨st1, heq, ?_, ?_⟩
  · simp only [build_points, List.length_map, List.length_zip]
    omega
  · simp only [build_points, zip_take_take, zipTruncRight]

/-- Witness for C10: two vectors, two payloads, a single id. -/
theorem C10_upsert_truncates_witness :
    ((([(1 : ℚ)], [(2 : ℚ)]) : List ℚ × List ℚ).1 :: [[(2 : ℚ)]]).length = 2 ∧
    ∃ st1, upsert_vectors 3072 genG [[(1 : ℚ)], [(2 : ℚ)]] ["p", "q"] (some ["a"]) "c"
        ⟨[], []⟩ = Except.ok (["a"], st1) ∧
      (build_points ["a"] [[(1 : ℚ)], [(2 : ℚ)]] ["p", "q"]).length = ["a"].length ∧
      build_points ["a"] [[(1 : ℚ)], [(2 : ℚ)]] ["p", "q"] =
        build_points ["a"] ([[(1 : ℚ)], [(2 : ℚ)]].take ["a"].length)
          (["p", "q"].take ["a"].length) :=
  ⟨by decide,
    C10_upsert_truncates 3072 genG [[(1 : ℚ)], [(2 : ℚ)]] ["p", "q"] ["a"] "c"
      ⟨[], []⟩ (by decide) (by decide)⟩

theorem bump_length : ∀ (v : List ℚ) (i : Nat), (bump v i).length = v.length := by
  intro v
  induction v with
  | nil => intro i; rfl
  | cons x xs ih =>
    intro i
    cases i with
    | zero => rfl
    | succ i => simp [bump, ih]

theorem bump_sum : ∀ (v : List ℚ) (i : Nat), i < v.length → (bump v i).sum = v.sum + 1 := by
  intro v
  induction v with
  | nil => intro i hi; simp at hi
  | cons x xs ih =>
    intro i hi
    cases i with
    | zero => simp [bump]; ring
    | succ i =>
      have := ih i (by simpa using hi)
      simp only [bump, List.sum_cons, this]
      ring

theorem bump_nonneg : ∀ (v : List ℚ) (i : Nat), (∀ x ∈ v, 0 ≤ x) →
    ∀ x ∈ bump v i, 0 ≤ x := by
  intro v
  induction v with
  | nil => intro i h x hx; simp [bump] at hx
  | cons y ys ih =>
    intro i h x hx
    cases i with
    | zero =>
      simp only [bump, List.mem_cons] at hx
      rcases hx with rfl | hx
      · have := h y (by simp)
        linarith
      · exact h x (by simp [hx])
    | succ i =>
      simp only [bump, List.mem_cons] at hx
      rcases hx with rfl | hx
      · exact h x (by simp)
      · exact ih i (fun z hz => h z (by simp [hz])) x hx

/-- Invariant of the bag-of-tokens accumulation: length preserved,
entries nonnegative, and the total mass equals the number of tokens. -/
theorem foldl_bump (hash : List Char → Nat) (dims : Nat) (hd : 0 < dims) :
    ∀ (toks : List (List Char)) (v : List ℚ), v.length = dims → (∀ x ∈ v, 0 ≤ x) →
    (toks.foldl (fun w tok => bump w (hash tok % dims)) v).length = dims ∧
    (∀ x ∈ toks.foldl (fun w tok => bump w (hash tok % dims)) v, 0 ≤ x) ∧
    (toks.foldl (fun w tok => bump w (hash tok % dims)) v).sum =
      v.sum + (toks.length : ℚ) := by
  intro toks
  induction toks with
  | nil => intro v hl hn; exact ⟨hl, hn, by simp⟩
  | cons t ts ih =>
    intro v hl hn
    have hlt : hash t % dims < v.length := by rw [hl]; exact Nat.mod_lt _ hd
    have h1 : (bump v (hash t % dims)).length = dims := by rw [bump_length, hl]
    have h2 := bump_nonneg v (hash t % dims) hn
    obtain ⟨ha, hb, hc⟩ := ih (bump v (hash t % dims)) h1 h2
    refine ⟨ha, hb, ?_⟩
    simp only [List.foldl_cons, hc, bump_sum v _ hlt, List.length_cons]
    push_cast
    ring

theorem sumSq_nonneg : ∀ v : List ℚ, 0 ≤ sumSq v := by
  intro v
  induction v with
  | nil => simp [sumSq]
  | cons x xs ih =>
    simp only [sumSq, List.map_cons, List.sum_cons] at ih ⊢
    have := mul_self_nonneg x
    linarith

theorem sumSq_pos : ∀ (v : List ℚ), (∀ x ∈ v, 0 ≤ x) → 0 < v.sum → 0 < sumSq v := by
  intro v
  induction v with
  | nil => intro _ h; simp at h
  | cons x xs ih =>
    intro hnn hs
    rcases lt_or_eq_of_le (hnn x (by simp)) with hx | hx
    · have h1 : 0 < x * x := mul_pos hx hx
      have h2 := sumSq_nonneg xs
      simp only [sumSq, List.map_cons, List.sum_cons] at h2 ⊢
      linarith
    · have hxs : 0 < xs.sum := by
        rw [List.sum_cons, ← hx, zero_add] at hs
        exact hs
      have := ih (fun z hz => hnn z (by simp [hz])) hxs
      simp only [sumSq, List.map_cons, List.sum_cons] at this ⊢
      nlinarith

theorem sumSq_replicate_zero (n : Nat) : sumSq (List.replicate n (0 : ℚ)) = 0 := by
  simp [sumSq, List.map_replicate]

/-- The accumulated vector of `_vec`: dimension `dims`, nonnegative
entries, total mass the token count. -/
theorem rawVec_props (hash : List Char → Nat) (dims : Nat) (text : List Char)
    (hd : 0 < dims) :
    (rawVec hash dims text).length = dims ∧
    (∀ x ∈ rawVec hash dims text, 0 ≤ x) ∧
    (rawVec hash dims text).sum = ((tokensOf text).length : ℚ) := by
  have := foldl_bump hash dims hd (tokensOf text) (List.replicate dims 0)
    (by simp) (by intro x hx; rw [List.eq_of_mem_replicate hx])
  simpa [rawVec] using this

/-- C4 counterexample: `embed_texts` performs no normalisation — it
returns the remote service's vectors unchanged, here a vector of L2 norm
2, so the claimed unit-norm invariant fails on the `embed_texts` path. -/
theorem C4_counterexample :
    embed_texts "k".toList constService2 ("hello".toList :: []) =
      Except.ok [[(2 : ℚ)]] ∧
    vecNormSq [(2 : ℚ)] = 4 ∧ (4 : ℚ) ≠ 1 := by
  refine ⟨rfl, by norm_num [vecNormSq, sumSq], by norm_num⟩

/-- C4 (amended): the local `HashEmbedding._vec` returns a vector of
exactly unit squared L2 norm whenever the text has at least one token,
and leaves the all-zero vector as zero (divisor 1, never divided) when it
has none; the remote-service path `embed_texts` performs no
normalisation and returns the service's vectors unchanged, so its output
has unit norm only when the service's does. -/
theorem C4_embedding_normalization :
    (∀ (hash : List Char → Nat) (dims : Nat) (text : List Char), 0 < dims →
      ∃ sv, HashEmbedding._vec hash dims text = Except.ok sv ∧
        (tokensOf text ≠ [] → normSq sv = 1) ∧
        (tokensOf text = [] →
          sv.coords = List.replicate dims 0 ∧ sv.divisorSq = 1 ∧ normSq sv = 0)) ∧
    (∀ (apiKey : List Char) (service : List (List Char) → List (List ℚ))
      (texts : List (List Char)), texts ≠ [] → apiKey ≠ [] →
      embed_texts apiKey service texts = Except.ok (service texts)) := by
  constructor
  · intro hash dims text hd
    have hcond : ¬(dims = 0 ∧ tokensOf text ≠ []) := fun h => absurd h.1 (by omega)
    obtain ⟨hlen, hnn, hsum⟩ := rawVec_props hash dims text hd
    refine ⟨⟨rawVec hash dims text,
      if 0 < sumSq (rawVec hash dims text) then sumSq (rawVec hash dims text) else 1⟩,
      by rw [HashEmbedding._vec, if_neg hcond], ?_, ?_⟩
    · intro htoks
      have hpos : 0 < sumSq (rawVec hash dims text) := by
        refine sumSq_pos _ hnn ?_
        rw [hsum]
        exact_mod_cast List.length_pos.mpr htoks
      simp only [normSq, if_pos hpos]
      exact div_self (ne_of_gt hpos)
    · intro htoks
      have hraw : rawVec hash dims text = List.replicate dims 0 := by
        rw [rawVec, htoks]
        rfl
      have hzero : sumSq (rawVec hash dims text) = 0 := by
        rw [hraw, sumSq_replicate_zero]
      refine ⟨hraw, ?_, ?_⟩
      · simp [hzero]
      · simp [normSq, hzero]
  · intro apiKey service texts hne hk
    simp [embed_texts, hne, hk]

/-- Witness for C4 (amended) at a two-token text and a one-element
remote batch. -/
theorem C4_embedding_normalization_witness :
    (∃ sv, HashEmbedding._vec hashLen 4 "ab cd".toList = Except.ok sv ∧
      (tokensOf "ab cd".toList ≠ [] → normSq sv = 1) ∧
      (tokensOf "ab cd".toList = [] →
        sv.coords = List.replicate 4 0 ∧ sv.divisorSq = 1 ∧ normSq sv = 0)) ∧
    embed_texts "k".toList constService2 ("hello".toList :: []) =
      Except.ok (constService2 ("hello".toList :: [])) :=
  ⟨C4_embedding_normalization.1 hashLen 4 "ab cd".toList (by decide),
    C4_embedding_normalization.2 "k".toList constService2 ("hello".toList :: [])
      (by decide) (by decide)⟩

/-- C9 counterexample: `HashEmbedding.embed` on the empty list raises —
`np.vstack([])` fails with ValueError — refuting the claim that embed
returns normally for every list of texts including the empty one. -/
theorem C9_counterexample :
    HashEmbedding.embed hashLen 512 [] =
      Except.error "need at least one array to concatenate" := rfl

theorem mapExcept_ok (f : α → Except String β) :
    ∀ l : List α, (∀ a ∈ l, ∃ b, f a = Except.ok b) →
    ∃ bs, HashEmbedding.mapExcept f l = Except.ok bs := by
  intro l
  induction l with
  | nil => exact fun _ => ⟨[], rfl⟩
  | cons a as ih =>
    intro h
    obtain ⟨b, hb⟩ := h a (List.mem_cons_self a as)
    obtain ⟨bs, hbs⟩ := ih (fun x hx => h x (List.mem_cons_of_mem _ hx))
    exact ⟨b :: bs, by simp [HashEmbedding.mapExcept, hb, hbs]⟩

/-- C9 (amended): for every nonempty list of input texts (and positive
dimension, as in the constructor default `dims = 512`),
`HashEmbedding.embed` returns normally; on the empty list `np.vstack`
raises ValueError. -/
theorem C9_embed_nonempty_total (hash : List Char → Nat) (dims : Nat)
    (texts : List (List Char)) (hd : 0 < dims) (hne : texts ≠ []) :
    exceptOk (HashEmbedding.embed hash dims texts) = true := by
  have hvec : ∀ t ∈ texts, ∃ sv, HashEmbedding._vec hash dims t = Except.ok sv := by
    intro t _
    have hcond : ¬(dims = 0 ∧ tokensOf t ≠ []) := fun h => absurd h.1 (by omega)
    exact ⟨_, by rw [HashEmbedding._vec, if_neg hcond]⟩
  obtain ⟨bs, hbs⟩ := mapExcept_ok _ texts hvec
  simp [HashEmbedding.embed, hne, hbs, exceptOk]

/-- Witness for C9 (amended): a singleton batch embeds successfully. -/
theorem C9_embed_nonempty_total_witness :
    (0 : Nat) < 512 ∧ (("hi".toList :: []) : List (List Char)) ≠ [] ∧
    exceptOk (HashEmbedding.embed hashLen 512 ("hi".toList :: [])) = true :=
  ⟨by decide, by decide,
    C9_embed_nonempty_total hashLen 512 ("hi".toList :: []) (by decide) (by decide)⟩

end OpenEducation
